import Mathlib

/-!
Shallow embedding of the `also-cache` S3-FIFO cache (repository `andude10/also-cache`).

The embedding covers:

* `src/cache_shard.rs` — the `CacheShard` state machine: the three circular
  intrusive queues (Small, Main, Ghost) threaded through a node arena, the
  hash index, the admission / promotion / demotion protocol and the eviction
  cascade.  This is the primary model; all shard-level claims are settled
  against it.
* `src/cache_nodes_arena.rs` — the `NodeArena` variant, whose state has the
  same shape as `CacheShard`; only its `insert_bytes` differs (unguarded
  frequency bump, no weight/size update on an existing key, early return
  before the eviction cascade).  We reuse the shard state type for it.
* `src/cache.rs` — the `AlsoCache::with` constructor's threshold computation
  (the `(size as f64 * ratio) as usize` expressions), modelled with exact
  emulation of IEEE-754 double rounding (round to nearest, ties to even) on
  the dyadic rationals involved.

Modelling conventions:

* The node `Vec` is modelled as a total function `Nat → Node` together with an
  explicit length `nodesLen` (used where the source reads `self.nodes.len()`).
  Out-of-range access never occurs on the verified paths, so the total
  function is a faithful model of `Vec` indexing there.  The key side table
  `nodes_keys` is modelled the same way.
* `u64` arithmetic on sizes and weights uses wrap-around (release-profile)
  semantics: `w64add` / `w64sub` compute modulo `2^64`, exactly as Rust's
  wrapping `+=` / `-=` on `u64`.
* The hashbrown `HashTable` keyed by `hash(key)` with a key-equality closure
  is modelled as an association list `List (Nat × Nat)` of `(key, index)`
  pairs: lookup finds the first entry with the given key, `insert_unique`
  conses a fresh entry, and `handle_node_eviction`'s removal "by identity"
  (`|&idx| idx == node_ref.idx`) removes the first entry whose stored index
  matches.
* The `while` eviction loops are given explicit fuel; running out of fuel, or
  the `panic!` on popping an empty queue, is modelled as `none`.
-/

/-- `QueueTypeId` from `cache_shard.rs`. -/
inductive QueueTypeId where
  | noQueue : QueueTypeId
  | small : QueueTypeId
  | main : QueueTypeId
  | ghost : QueueTypeId
deriving DecidableEq, Repr

/-- `Node` from `cache_shard.rs`: data bytes, weight, circular-list links,
frequency counter and queue tag. -/
structure Node where
  data : List Nat
  weight : Nat
  next : Nat
  prev : Nat
  freq : Nat
  queue : QueueTypeId
deriving DecidableEq, Repr

instance : Inhabited Node := ⟨{ data := [], weight := 0, next := 0, prev := 0, freq := 0, queue := .noQueue }⟩

/-- `CacheShard` from `cache_shard.rs` (also the state shape of `NodeArena` in
`cache_nodes_arena.rs`).  Vectors are total functions plus a length. -/
structure CacheShard where
  map : List (Nat × Nat)
  nodes_keys : Nat → Nat
  keysLen : Nat
  nodes : Nat → Node
  nodesLen : Nat
  freelist : List Nat
  small_size : Nat
  main_size : Nat
  ghost_size : Nat
  small_threshold : Nat
  main_threshold : Nat
  ghost_threshold : Nat
  small_head : Option Nat
  main_head : Option Nat
  ghost_head : Option Nat

/-- Update a single slot of the node array. -/
def updN (ns : Nat → Node) (i : Nat) (g : Node → Node) : Nat → Node :=
  fun j => if j = i then g (ns i) else ns j

/-- Update a single slot of the key side table. -/
def updK (ks : Nat → Nat) (i v : Nat) : Nat → Nat :=
  fun j => if j = i then v else ks j

/-- Rust's `u32::MAX`, the poison value stored into freed slots' links. -/
def U32MAX : Nat := 2 ^ 32 - 1

/-- Wrapping `u64` addition (`+=` on `u64`, release semantics). -/
def w64add (a b : Nat) : Nat := (a + b) % 2 ^ 64

/-- Wrapping `u64` subtraction (`-=` on `u64`, release semantics). -/
def w64sub (a b : Nat) : Nat := (a + 2 ^ 64 - b % 2 ^ 64) % 2 ^ 64

/-- Hash-index lookup: first entry with the given key (`HashTable::find` with
the key-equality closure). -/
def mapFind (m : List (Nat × Nat)) (key : Nat) : Option Nat :=
  (m.find? (fun p => p.1 == key)).map (fun p => p.2)

/-- Hash-index removal by slot identity (`find_entry(hash, |&idx| idx == i)`
followed by `remove`): drops the first entry whose stored index is `i`. -/
def mapRemoveIdx (m : List (Nat × Nat)) (i : Nat) : List (Nat × Nat) :=
  m.eraseP (fun p => p.2 == i)

/-- `CacheShard::new`. -/
def CacheShard.new (st mt gt : Nat) : CacheShard where
  map := []
  nodes_keys := fun _ => 0
  keysLen := 0
  nodes := fun _ => default
  nodesLen := 0
  freelist := []
  small_size := 0
  main_size := 0
  ghost_size := 0
  small_threshold := st
  main_threshold := mt
  ghost_threshold := gt
  small_head := none
  main_head := none
  ghost_head := none

/-- `prev_node`: `None` iff the node is self-linked (singleton queue). -/
def prev_node (i : Nat) (ns : Nat → Node) : Option Nat :=
  if (ns i).prev = i then none else some ((ns i).prev)

/-- `unlink_node`: clear the queue tag, join the neighbours, self-link `i`.
The four writes happen in the source's order, so aliasing (e.g. a singleton
queue, where `prev = next = i`) behaves exactly as in the Rust code. -/
def unlink_node (i : Nat) (ns : Nat → Node) : Nat → Node :=
  let ns0 := updN ns i (fun n => { n with queue := .noQueue })
  let next_idx := (ns0 i).next
  let prev_idx := (ns0 i).prev
  let ns1 := updN ns0 prev_idx (fun n => { n with next := next_idx })
  let ns2 := updN ns1 next_idx (fun n => { n with prev := prev_idx })
  updN ns2 i (fun n => { n with next := i, prev := i })

/-- `move_to_queue`: set the queue tag and splice `i` in right after the head
(or make it the head of an empty queue).  Returns the nodes and the new head. -/
def move_to_queue (qid : QueueTypeId) (i : Nat) (ns : Nat → Node) (head : Option Nat) :
    (Nat → Node) × Option Nat :=
  let ns0 := updN ns i (fun n => { n with queue := qid })
  match head with
  | some h =>
    let tail_idx := (ns0 h).next
    let ns1 := updN ns0 tail_idx (fun n => { n with prev := i })
    let ns2 := updN ns1 i (fun n => { n with prev := h })
    let ns3 := updN ns2 i (fun n => { n with next := tail_idx })
    (updN ns3 h (fun n => { n with next := i }), some h)
  | none => (ns0, some i)

/-- `pop_head`: returns `(popped index?, nodes, new head)`. -/
def pop_head (ns : Nat → Node) (head : Option Nat) :
    Option Nat × (Nat → Node) × Option Nat :=
  match head with
  | some h =>
    match prev_node h ns with
    | some p => (some h, unlink_node h ns, some p)
    | none => (some h, unlink_node h ns, none)
  | none => (none, ns, none)

/-- `evict_node`: reset the slot to the sentinel state (data and counters
cleared, links poisoned with `u32::MAX`).  The queue tag is *not* written here;
the slot is always unlinked (tag `NoQueue`) before this is called. -/
def evict_node (i : Nat) (ns : Nat → Node) : Nat → Node :=
  updN ns i (fun n =>
    { n with data := [], weight := 0, freq := 0, next := U32MAX, prev := U32MAX })

/-- `occupy_node`: refill a freed slot with fresh data; self-linked, freq 0. -/
def occupy_node (i : Nat) (ns : Nat → Node) (data_size : Nat) (data : List Nat) : Nat → Node :=
  updN ns i (fun n =>
    { n with data := data, weight := data_size, freq := 0, next := i, prev := i })

/-- `create_node`: pop the freelist, else push a fresh self-linked node at the
end of the vector.  Returns the state and the new index. -/
def create_node (s : CacheShard) (data_size : Nat) (data : List Nat) : CacheShard × Nat :=
  match s.freelist with
  | f :: rest =>
    ({ s with freelist := rest, nodes := occupy_node f s.nodes data_size data }, f)
  | [] =>
    ({ s with
        nodes := updN s.nodes s.nodesLen (fun _ =>
          { data := data, weight := data_size, next := s.nodesLen, prev := s.nodesLen,
            freq := 0, queue := .noQueue }),
        nodesLen := s.nodesLen + 1 }, s.nodesLen)

/-- `allocate_small`: create a node, add its weight to `small_size`, splice it
into the Small queue. -/
def allocate_small (s : CacheShard) (data_size : Nat) (data : List Nat) : CacheShard × Nat :=
  let p := create_node s data_size data
  let s1 := { p.1 with small_size := w64add p.1.small_size data_size }
  let mq := move_to_queue .small p.2 s1.nodes s1.small_head
  ({ s1 with nodes := mq.1, small_head := mq.2 }, p.2)

/-- `promote_to_main`: reset freq to 0, add the weight to `main_size`, splice
into Main. -/
def promote_to_main (s : CacheShard) (i : Nat) : CacheShard :=
  let s1 := { s with nodes := updN s.nodes i (fun n => { n with freq := 0 }) }
  let s2 := { s1 with main_size := w64add s1.main_size (s1.nodes i).weight }
  let mq := move_to_queue .main i s2.nodes s2.main_head
  { s2 with nodes := mq.1, main_head := mq.2 }

/-- `demote_to_ghost`: add the weight to `ghost_size`, splice into Ghost, then
clear the data (the weight is deliberately kept). -/
def demote_to_ghost (s : CacheShard) (i : Nat) : CacheShard :=
  let s1 := { s with ghost_size := w64add s.ghost_size (s.nodes i).weight }
  let mq := move_to_queue .ghost i s1.nodes s1.ghost_head
  let ns := updN mq.1 i (fun n => { n with data := [] })
  { s1 with nodes := ns, ghost_head := mq.2 }

/-- `handle_node_eviction`: drop the slot's hash-index entry (by identity) and
push the slot on the freelist. -/
def handle_node_eviction (s : CacheShard) (i : Nat) : CacheShard :=
  { s with map := mapRemoveIdx s.map i, freelist := i :: s.freelist }

/-- One iteration of the `evict_small_if_needed` loop body: pop the Small
head, subtract its weight from `small_size`, then promote (freq > 0) or
demote (freq = 0).  `none` models the `panic!` on an empty queue. -/
def evictSmallStep (s : CacheShard) : Option CacheShard :=
  match pop_head s.nodes s.small_head with
  | (some h, ns, hd) =>
    let s1 := { s with nodes := ns, small_head := hd }
    let s2 := { s1 with small_size := w64sub s1.small_size (s1.nodes h).weight }
    if (s2.nodes h).freq > 0 then some (promote_to_main s2 h) else some (demote_to_ghost s2 h)
  | (none, _, _) => none

/-- `evict_small_if_needed` (fuel-indexed `while small_size > small_threshold`). -/
def evict_small_if_needed : Nat → CacheShard → Option CacheShard
  | 0, _ => none
  | fuel + 1, s =>
    if s.small_size > s.small_threshold then
      match evictSmallStep s with
      | some s' => evict_small_if_needed fuel s'
      | none => none
    else some s

/-- One iteration of the `evict_ghost_if_needed` loop body. -/
def evictGhostStep (s : CacheShard) : Option CacheShard :=
  match pop_head s.nodes s.ghost_head with
  | (some h, ns, hd) =>
    let s1 := { s with nodes := ns, ghost_head := hd }
    let s2 := { s1 with ghost_size := w64sub s1.ghost_size (s1.nodes h).weight }
    if (s2.nodes h).freq > 0 ∧ (s2.nodes h).data.length > 0 then
      some (promote_to_main s2 h)
    else
      some (handle_node_eviction { s2 with nodes := evict_node h s2.nodes } h)
  | (none, _, _) => none

/-- `evict_ghost_if_needed`. -/
def evict_ghost_if_needed : Nat → CacheShard → Option CacheShard
  | 0, _ => none
  | fuel + 1, s =>
    if s.ghost_size > s.ghost_threshold then
      match evictGhostStep s with
      | some s' => evict_ghost_if_needed fuel s'
      | none => none
    else some s

/-- One iteration of the `evict_main_if_needed` loop body: pop the Main head;
if freq > 0 decrement it and re-splice into Main (second chance), else
subtract the weight from `main_size`, free the slot and drop its hash entry. -/
def evictMainStep (s : CacheShard) : Option CacheShard :=
  match pop_head s.nodes s.main_head with
  | (some h, ns, hd) =>
    let s1 := { s with nodes := ns, main_head := hd }
    if (s1.nodes h).freq > 0 then
      let s2 := { s1 with nodes := updN s1.nodes h (fun n => { n with freq := n.freq - 1 }) }
      let mq := move_to_queue .main h s2.nodes s2.main_head
      some { s2 with nodes := mq.1, main_head := mq.2 }
    else
      let s2 := { s1 with main_size := w64sub s1.main_size (s1.nodes h).weight }
      some (handle_node_eviction { s2 with nodes := evict_node h s2.nodes } h)
  | (none, _, _) => none

/-- `evict_main_if_needed`. -/
def evict_main_if_needed : Nat → CacheShard → Option CacheShard
  | 0, _ => none
  | fuel + 1, s =>
    if s.main_size > s.main_threshold then
      match evictMainStep s with
      | some s' => evict_main_if_needed fuel s'
      | none => none
    else some s

/-- Fuel bound for the eviction loops: in every reachable state each loop
iteration removes a queue member or decrements a (u8) frequency, so
`256 * nodesLen + 2` steps always suffice. -/
def insertFuel (s : CacheShard) : Nat := 256 * s.nodesLen + 2

/-- `if self.nodes[idx].freq < 3 { self.nodes[idx].freq += 1 }` — the
saturating frequency bump shared by `get_bytes` and `insert_bytes`. -/
def bump_freq (s : CacheShard) (i : Nat) : CacheShard :=
  if (s.nodes i).freq < 3 then
    { s with nodes := updN s.nodes i (fun n => { n with freq := n.freq + 1 }) }
  else s

/-- The update phase of `CacheShard::insert_bytes` (lines 165–196): update the
existing slot in place, or allocate into Small, record the key and the hash
entry.  The eviction cascade is not yet run. -/
def insert_bytes_update (s : CacheShard) (key data_size : Nat) (data : List Nat) : CacheShard :=
  match mapFind s.map key with
  | some idx =>
    let s1 := bump_freq s idx
    let weight_diff := w64sub data_size ((s1.nodes idx).weight)
    let s2 :=
      match (s1.nodes idx).queue with
      | .small => { s1 with small_size := w64add s1.small_size weight_diff }
      | .main => { s1 with main_size := w64add s1.main_size weight_diff }
      | .ghost => { s1 with main_size := w64add s1.main_size weight_diff }
      | .noQueue => s1
    { s2 with nodes := updN s2.nodes idx (fun n => { n with data := data, weight := data_size }) }
  | none =>
    let p := allocate_small s data_size data
    let s1 := p.1
    let new_idx := p.2
    let s2 :=
      if new_idx = s1.keysLen then
        { s1 with nodes_keys := updK s1.nodes_keys new_idx key, keysLen := s1.keysLen + 1 }
      else
        { s1 with nodes_keys := updK s1.nodes_keys new_idx key }
    { s2 with map := (key, new_idx) :: s2.map }

/-- `CacheShard::insert_bytes`: the update phase followed by the eviction
cascade (Small, then Ghost, then Main). -/
def insert_bytes (s : CacheShard) (key data_size : Nat) (data : List Nat) : Option CacheShard :=
  let s1 := insert_bytes_update s key data_size data
  match evict_small_if_needed (insertFuel s1) s1 with
  | none => none
  | some s2 =>
    match evict_ghost_if_needed (insertFuel s2) s2 with
    | none => none
    | some s3 => evict_main_if_needed (insertFuel s3) s3

/-- `CacheShard::get_bytes`: look up the slot, saturating-bump freq, return the
data iff it is non-empty. -/
def get_bytes (s : CacheShard) (key : Nat) : CacheShard × Option (List Nat) :=
  match mapFind s.map key with
  | none => (s, none)
  | some idx =>
    let s1 := bump_freq s idx
    if (s1.nodes idx).data = [] then (s1, none) else (s1, some ((s1.nodes idx).data))

/-- `delete_node`: remove the node from its queue, handling the case where it
is the queue head, and reset the slot to the sentinel state. -/
def delete_node (i : Nat) (ns : Nat → Node) (head : Option Nat) :
    (Nat → Node) × Option Nat :=
  if head = some i then
    match pop_head ns head with
    | (some d, ns', hd) => (evict_node d ns', hd)
    | (none, ns', hd) => (ns', hd)
  else
    (evict_node i (unlink_node i ns), head)

/-- `CacheShard::delete`: absent key returns `false`; a slot with empty data
returns `false` (the `data.len() <= 0` early return); otherwise the slot is
unlinked from its queue, freed, its hash entry dropped, and `true` returned. -/
def delete (s : CacheShard) (key : Nat) : CacheShard × Bool :=
  match mapFind s.map key with
  | none => (s, false)
  | some idx =>
    if (s.nodes idx).data.length ≤ 0 then (s, false)
    else
      match (s.nodes idx).queue with
      | .small =>
        let s1 := { s with small_size := w64sub s.small_size (s.nodes idx).weight }
        let dn := delete_node idx s1.nodes s1.small_head
        (handle_node_eviction { s1 with nodes := dn.1, small_head := dn.2 } idx, true)
      | .main =>
        let s1 := { s with main_size := w64sub s.main_size (s.nodes idx).weight }
        let dn := delete_node idx s1.nodes s1.main_head
        (handle_node_eviction { s1 with nodes := dn.1, main_head := dn.2 } idx, true)
      | .ghost =>
        let s1 := { s with ghost_size := w64sub s.ghost_size (s.nodes idx).weight }
        let dn := delete_node idx s1.nodes s1.ghost_head
        (handle_node_eviction { s1 with nodes := dn.1, ghost_head := dn.2 } idx, true)
      | .noQueue => (s, false)

/-- `NodeArena::insert_bytes` from `cache_nodes_arena.rs`.  On an existing key
it bumps `freq` with **no** `< 3` guard (a `u16`, wrapping at `2^16`), replaces
the data, and returns before any eviction; weight and queue sizes are not
touched.  On a new key it allocates into Small, records the hash entry, then
the key, then runs the cascade. -/
def arena_insert_bytes (s : CacheShard) (key data_size : Nat) (data : List Nat) :
    Option CacheShard :=
  match mapFind s.map key with
  | some idx =>
    some { s with
      nodes := updN s.nodes idx (fun n => { n with freq := (n.freq + 1) % 2 ^ 16, data := data }) }
  | none =>
    let p := allocate_small s data_size data
    let s1 := { p.1 with map := (key, p.2) :: p.1.map }
    let s2 :=
      if p.2 ≥ s1.keysLen then
        { s1 with nodes_keys := updK s1.nodes_keys p.2 key, keysLen := s1.keysLen + 1 }
      else
        { s1 with nodes_keys := updK s1.nodes_keys p.2 key }
    match evict_small_if_needed (insertFuel s2) s2 with
    | none => none
    | some s3 =>
      match evict_ghost_if_needed (insertFuel s3) s3 with
      | none => none
      | some s4 => evict_main_if_needed (insertFuel s4) s4

/-- Sum of `weight` over the live slots currently tagged with queue `q`. -/
def sumQueueWeights (s : CacheShard) (q : QueueTypeId) : Nat :=
  ((List.range s.nodesLen).map (fun j => if (s.nodes j).queue = q then (s.nodes j).weight else 0)).sum

/-! ### Concrete scenario: a Ghost entry re-inserted with new bytes

Shard with thresholds (small 1, main 100, ghost 100).  Inserting key 0 with
weight 5 overflows Small at once and demotes the entry to Ghost; re-inserting
key 0 with weight 7 and non-empty bytes then exercises the
`QueueTypeId::Ghost => self.main_size += weight_diff` branch of
`insert_bytes`. -/

def shardT : CacheShard := CacheShard.new 1 100 100

def sGhost : CacheShard := (insert_bytes shardT 0 5 [1]).getD shardT

def sReins : CacheShard := (insert_bytes sGhost 0 7 [2, 2]).getD sGhost

-- sanity: the first insert really demotes key 0 to Ghost with cleared data
example : (sGhost.nodes 0).queue = .ghost ∧ (sGhost.nodes 0).data = [] ∧
    sGhost.ghost_size = 5 ∧ mapFind sGhost.map 0 = some 0 := by decide

/-- C1: re-inserting a key whose slot is in Ghost (new weight 7, old weight 5,
non-empty bytes) leaves the slot in the Ghost queue with non-empty data and
adds the weight difference to `main_size` although Main is empty: after the
whole operation the invariants the claim requires are violated — the Ghost
node has non-empty data, and `small_size + main_size = 2` while the Small and
Main queues hold no node at all (sum of weights 0).  This refutes the claimed
promotion-with-invariants behaviour; the spec (and the sibling `AlsoCache`
implementation, which promotes immediately) is the intent, the
`Ghost => main_size += weight_diff` arm is the slip. -/
theorem c1_ghost_reinsert_violates_invariants :
    insert_bytes sGhost 0 7 [2, 2] = some sReins ∧
    (sReins.nodes 0).queue = .ghost ∧
    (sReins.nodes 0).data = [2, 2] ∧
    sReins.main_size = 2 ∧
    sumQueueWeights sReins .main = 0 ∧
    sumQueueWeights sReins .small = 0 ∧
    sReins.small_size + sReins.main_size ≠
      sumQueueWeights sReins .small + sumQueueWeights sReins .main := by
  refine ⟨rfl, by decide, by decide, by decide, by decide, by decide, by decide⟩

/-- C2: deleting a key whose entry sits in the Ghost queue returns `false` and
leaves the cache unchanged: `delete` hits the `data.len() <= 0` early return
before its own Ghost arm can run, so a demoted (empty-data) Ghost entry is
never deleted.  The claim (and the spec: "Deleting a Ghost entry removes it
and returns true") says it must return `true`. -/
theorem c2_delete_ghost_returns_false :
    mapFind sGhost.map 0 = some 0 ∧
    (sGhost.nodes 0).queue = .ghost ∧
    (sGhost.nodes 0).data = [] ∧
    delete sGhost 0 = (sGhost, false) := by
  refine ⟨by decide, by decide, by decide, rfl⟩

/-- C3: the operation sequence `insert(0,5,[1]); insert(0,7,[2,2]); delete(0)`
from a freshly constructed shard (thresholds 1/100/100) ends at a quiescent
point with `ghost_size = 2^64 - 2 > ghost_threshold = 100`: the ghost
re-insert set the node's weight to 7 while `ghost_size` still accounts the
original 5, so the `ghost_size -= weight` in `delete` wraps around.  This
refutes the claimed universal bound `ghost_size ≤ ghost_threshold` at every
quiescent point. -/
theorem c3_quiescent_threshold_violation :
    (delete sReins 0).2 = true ∧
    (delete sReins 0).1.ghost_size = 2 ^ 64 - 2 ∧
    (delete sReins 0).1.ghost_threshold = 100 ∧
    (delete sReins 0).1.ghost_size > (delete sReins 0).1.ghost_threshold := by
  refine ⟨by decide, by decide, by decide, by decide⟩

/-! ### Concrete scenario: NodeArena frequency counter overflows its [0,3] range -/

def arena0 : CacheShard := CacheShard.new 100 100 100

def arenaAfter (n : Nat) : CacheShard :=
  Nat.rec arena0 (fun _ s => (arena_insert_bytes s 0 5 [1]).getD s) n

/-- C7: in `NodeArena::insert_bytes` the existing-key path does `freq += 1`
with no `< 3` guard, so after one admission and four further inserts of the
same key the node's frequency is 4, exceeding the claimed saturation bound of
3.  (The shard's `get_bytes`/`insert_bytes` and `AlsoCache` all guard with
`freq < 3`; the unguarded arena bump is the slip.) -/
theorem c7_arena_freq_unbounded :
    ((arenaAfter 5).nodes 0).freq = 4 ∧ ¬ ((arenaAfter 5).nodes 0).freq ≤ 3 := by
  refine ⟨by decide, by decide⟩

/-! ### Pointwise lemmas about the list primitives -/

theorem updN_same (ns : Nat → Node) (i : Nat) (g : Node → Node) : updN ns i g i = g (ns i) := by
  simp [updN]

theorem updN_other (ns : Nat → Node) (i : Nat) (g : Node → Node) (j : Nat) (h : j ≠ i) :
    updN ns i g j = ns j := by
  simp [updN, h]

theorem updN_pres_data (ns : Nat → Node) (i : Nat) (g : Node → Node)
    (hg : ∀ n, (g n).data = n.data) (j : Nat) : ((updN ns i g) j).data = (ns j).data := by
  unfold updN
  split
  · next h => rw [hg, h]
  · rfl

theorem updN_pres_weight (ns : Nat → Node) (i : Nat) (g : Node → Node)
    (hg : ∀ n, (g n).weight = n.weight) (j : Nat) :
    ((updN ns i g) j).weight = (ns j).weight := by
  unfold updN
  split
  · next h => rw [hg, h]
  · rfl

theorem updN_pres_freq (ns : Nat → Node) (i : Nat) (g : Node → Node)
    (hg : ∀ n, (g n).freq = n.freq) (j : Nat) : ((updN ns i g) j).freq = (ns j).freq := by
  unfold updN
  split
  · next h => rw [hg, h]
  · rfl

theorem updN_pres_queue (ns : Nat → Node) (i : Nat) (g : Node → Node)
    (hg : ∀ n, (g n).queue = n.queue) (j : Nat) : ((updN ns i g) j).queue = (ns j).queue := by
  unfold updN
  split
  · next h => rw [hg, h]
  · rfl

theorem updN_pres_next (ns : Nat → Node) (i : Nat) (g : Node → Node)
    (hg : ∀ n, (g n).next = n.next) (j : Nat) : ((updN ns i g) j).next = (ns j).next := by
  unfold updN
  split
  · next h => rw [hg, h]
  · rfl

theorem updN_pres_prev (ns : Nat → Node) (i : Nat) (g : Node → Node)
    (hg : ∀ n, (g n).prev = n.prev) (j : Nat) : ((updN ns i g) j).prev = (ns j).prev := by
  unfold updN
  split
  · next h => rw [hg, h]
  · rfl

theorem unlink_dwf (i : Nat) (ns : Nat → Node) (j : Nat) :
    ((unlink_node i ns) j).data = (ns j).data ∧
    ((unlink_node i ns) j).weight = (ns j).weight ∧
    ((unlink_node i ns) j).freq = (ns j).freq := by
  simp only [unlink_node]
  refine ⟨?_, ?_, ?_⟩
  · rw [updN_pres_data _ _ _ (by exact fun _ => rfl), updN_pres_data _ _ _ (by exact fun _ => rfl),
      updN_pres_data _ _ _ (by exact fun _ => rfl), updN_pres_data _ _ _ (by exact fun _ => rfl)]
  · rw [updN_pres_weight _ _ _ (by exact fun _ => rfl), updN_pres_weight _ _ _ (by exact fun _ => rfl),
      updN_pres_weight _ _ _ (by exact fun _ => rfl), updN_pres_weight _ _ _ (by exact fun _ => rfl)]
  · rw [updN_pres_freq _ _ _ (by exact fun _ => rfl), updN_pres_freq _ _ _ (by exact fun _ => rfl),
      updN_pres_freq _ _ _ (by exact fun _ => rfl), updN_pres_freq _ _ _ (by exact fun _ => rfl)]

theorem unlink_queue_self (i : Nat) (ns : Nat → Node) :
    ((unlink_node i ns) i).queue = .noQueue := by
  simp only [unlink_node]
  rw [updN_pres_queue _ _ _ (by exact fun _ => rfl), updN_pres_queue _ _ _ (by exact fun _ => rfl),
    updN_pres_queue _ _ _ (by exact fun _ => rfl), updN_same]

theorem unlink_queue_other (i : Nat) (ns : Nat → Node) (j : Nat) (h : j ≠ i) :
    ((unlink_node i ns) j).queue = (ns j).queue := by
  simp only [unlink_node]
  rw [updN_pres_queue _ _ _ (by exact fun _ => rfl), updN_pres_queue _ _ _ (by exact fun _ => rfl),
    updN_pres_queue _ _ _ (by exact fun _ => rfl), updN_other _ _ _ _ h]

theorem move_dwf (q : QueueTypeId) (i : Nat) (ns : Nat → Node) (hd : Option Nat) (j : Nat) :
    (((move_to_queue q i ns hd).1) j).data = (ns j).data ∧
    (((move_to_queue q i ns hd).1) j).weight = (ns j).weight ∧
    (((move_to_queue q i ns hd).1) j).freq = (ns j).freq := by
  cases hd <;> simp only [move_to_queue] <;> refine ⟨?_, ?_, ?_⟩
  · rw [updN_pres_data _ _ _ (by exact fun _ => rfl)]
  · rw [updN_pres_weight _ _ _ (by exact fun _ => rfl)]
  · rw [updN_pres_freq _ _ _ (by exact fun _ => rfl)]
  · rw [updN_pres_data _ _ _ (by exact fun _ => rfl), updN_pres_data _ _ _ (by exact fun _ => rfl),
      updN_pres_data _ _ _ (by exact fun _ => rfl), updN_pres_data _ _ _ (by exact fun _ => rfl),
      updN_pres_data _ _ _ (by exact fun _ => rfl)]
  · rw [updN_pres_weight _ _ _ (by exact fun _ => rfl), updN_pres_weight _ _ _ (by exact fun _ => rfl),
      updN_pres_weight _ _ _ (by exact fun _ => rfl), updN_pres_weight _ _ _ (by exact fun _ => rfl),
      updN_pres_weight _ _ _ (by exact fun _ => rfl)]
  · rw [updN_pres_freq _ _ _ (by exact fun _ => rfl), updN_pres_freq _ _ _ (by exact fun _ => rfl),
      updN_pres_freq _ _ _ (by exact fun _ => rfl), updN_pres_freq _ _ _ (by exact fun _ => rfl),
      updN_pres_freq _ _ _ (by exact fun _ => rfl)]

theorem move_queue_self (q : QueueTypeId) (i : Nat) (ns : Nat → Node) (hd : Option Nat) :
    (((move_to_queue q i ns hd).1) i).queue = q := by
  cases hd <;> simp only [move_to_queue]
  · rw [updN_same]
  · rw [updN_pres_queue _ _ _ (by exact fun _ => rfl), updN_pres_queue _ _ _ (by exact fun _ => rfl),
      updN_pres_queue _ _ _ (by exact fun _ => rfl), updN_pres_queue _ _ _ (by exact fun _ => rfl), updN_same]

theorem evict_node_fields (i : Nat) (ns : Nat → Node) :
    ((evict_node i ns) i).data = [] ∧ ((evict_node i ns) i).weight = 0 ∧
    ((evict_node i ns) i).freq = 0 ∧ ((evict_node i ns) i).next = U32MAX ∧
    ((evict_node i ns) i).prev = U32MAX ∧ ((evict_node i ns) i).queue = (ns i).queue := by
  unfold evict_node
  rw [updN_same]
  exact ⟨rfl, rfl, rfl, rfl, rfl, rfl⟩

/-- `unlink_node` unfolded with the neighbour indices written as projections
of the original array (definitional equality). -/
theorem unlink_eq (i : Nat) (ns : Nat → Node) :
    unlink_node i ns =
      updN (updN (updN (updN ns i (fun n => { n with queue := .noQueue }))
          ((ns i).prev) (fun n => { n with next := (ns i).next }))
          ((ns i).next) (fun n => { n with prev := (ns i).prev }))
        i (fun n => { n with next := i, prev := i }) := by
  simp only [unlink_node, updN_same]

theorem unlink_self_links (i : Nat) (ns : Nat → Node) :
    ((unlink_node i ns) i).next = i ∧ ((unlink_node i ns) i).prev = i := by
  constructor <;> (rw [unlink_eq, updN_same])

/-! ### u64 wrap-around arithmetic -/

theorem w64_pow : (2 : Nat) ^ 64 = 18446744073709551616 := by norm_num

/-- The wrap of `w - old` cancels against the wrap of the following addition:
for `old ≤ size < 2^64` and `w < 2^64`,
`size +w (w -w old) = (size - old + w) mod 2^64`. -/
theorem w64_cancel (size old w : Nat) (h1 : old ≤ size) (h2 : size < 2 ^ 64)
    (h3 : w < 2 ^ 64) : w64add size (w64sub w old) = (size - old + w) % 2 ^ 64 := by
  unfold w64add w64sub
  rw [w64_pow] at *
  omega

theorem w64sub_exact (a b : Nat) (h1 : b ≤ a) (h2 : a < 2 ^ 64) : w64sub a b = a - b := by
  unfold w64sub
  rw [w64_pow] at *
  omega

theorem w64add_exact (a b : Nat) (h : a + b < 2 ^ 64) : w64add a b = a + b := by
  unfold w64add
  rw [w64_pow] at *
  omega

theorem bump_freq_fields (s : CacheShard) (i : Nat) :
    ((bump_freq s i).nodes i).weight = (s.nodes i).weight ∧
    ((bump_freq s i).nodes i).queue = (s.nodes i).queue ∧
    (bump_freq s i).small_size = s.small_size ∧
    (bump_freq s i).main_size = s.main_size ∧
    (bump_freq s i).ghost_size = s.ghost_size ∧
    (bump_freq s i).map = s.map := by
  unfold bump_freq
  split_ifs <;> simp [updN_same]

/-- C10: when `insert_bytes` updates a key already resident in Small or Main
whose stored weight `old` is at most that queue's current size, the update
phase sets the queue size to `(size - old + w) mod 2^64`: the wrapping
difference `w -w old` cancels against the wrapping `+=`, so a shrinking
re-insert (`w < old`) still leaves the counter exactly `size - old + w`. -/
theorem c10_update_size_arithmetic (s : CacheShard) (key w i : Nat) (d : List Nat)
    (hfind : mapFind s.map key = some i) (hw : w < 2 ^ 64) :
    ((s.nodes i).queue = .small → (s.nodes i).weight ≤ s.small_size →
      s.small_size < 2 ^ 64 →
      (insert_bytes_update s key w d).small_size =
        (s.small_size - (s.nodes i).weight + w) % 2 ^ 64) ∧
    ((s.nodes i).queue = .main → (s.nodes i).weight ≤ s.main_size →
      s.main_size < 2 ^ 64 →
      (insert_bytes_update s key w d).main_size =
        (s.main_size - (s.nodes i).weight + w) % 2 ^ 64) := by
  obtain ⟨hbw, hbq, hbs, hbm, hbg, hbmap⟩ := bump_freq_fields s i
  constructor
  · intro hq hle hlt
    simp only [insert_bytes_update, hfind]
    rw [hbw, hbq, hq]
    simp only [hbs]
    exact w64_cancel s.small_size (s.nodes i).weight w hle hlt hw
  · intro hq hle hlt
    simp only [insert_bytes_update, hfind]
    rw [hbw, hbq, hq]
    simp only [hbm]
    exact w64_cancel s.main_size (s.nodes i).weight w hle hlt hw

/-! ### Field lemmas for promotion / demotion -/

theorem promote_fields (s : CacheShard) (i : Nat) :
    (promote_to_main s i).small_size = s.small_size ∧
    (promote_to_main s i).ghost_size = s.ghost_size ∧
    (promote_to_main s i).main_size = w64add s.main_size (s.nodes i).weight ∧
    ((promote_to_main s i).nodes i).queue = .main ∧
    ((promote_to_main s i).nodes i).freq = 0 ∧
    ((promote_to_main s i).nodes i).weight = (s.nodes i).weight ∧
    ((promote_to_main s i).nodes i).data = (s.nodes i).data ∧
    (promote_to_main s i).map = s.map ∧
    (promote_to_main s i).freelist = s.freelist := by
  unfold promote_to_main
  dsimp only
  refine ⟨rfl, rfl, ?_, ?_, ?_, ?_, ?_, rfl, rfl⟩
  · rw [updN_same]
  · exact move_queue_self _ _ _ _
  · rw [(move_dwf _ _ _ _ _).2.2, updN_same]
  · rw [(move_dwf _ _ _ _ _).2.1, updN_same]
  · rw [(move_dwf _ _ _ _ _).1, updN_same]

theorem demote_fields (s : CacheShard) (i : Nat) :
    (demote_to_ghost s i).small_size = s.small_size ∧
    (demote_to_ghost s i).main_size = s.main_size ∧
    (demote_to_ghost s i).ghost_size = w64add s.ghost_size (s.nodes i).weight ∧
    ((demote_to_ghost s i).nodes i).queue = .ghost ∧
    ((demote_to_ghost s i).nodes i).data = [] ∧
    ((demote_to_ghost s i).nodes i).weight = (s.nodes i).weight ∧
    (demote_to_ghost s i).map = s.map ∧
    (demote_to_ghost s i).freelist = s.freelist := by
  unfold demote_to_ghost
  dsimp only
  refine ⟨rfl, rfl, rfl, ?_, ?_, ?_, rfl, rfl⟩
  · rw [updN_same]
    exact move_queue_self _ _ _ _
  · rw [updN_same]
  · rw [updN_same]
    exact (move_dwf _ _ _ _ _).2.1

/-- C4: one Small-overflow step of the eviction cascade pops the Small head
`h`: `small_size` drops by exactly the popped node's weight; if its freq was
positive the node is promoted to Main with freq reset to 0, queue tag Main,
and its weight added to `main_size`; otherwise it is demoted to Ghost (queue
tag Ghost, weight added to `ghost_size`, data cleared, weight field kept).
The `< 2^64` side conditions say the u64 counters do not wrap, which holds in
every reachable state. -/
theorem c4_small_overflow_step (s : CacheShard) (h : Nat)
    (hhead : s.small_head = some h)
    (hover : s.small_size > s.small_threshold)
    (hwle : (s.nodes h).weight ≤ s.small_size)
    (hs64 : s.small_size < 2 ^ 64)
    (hm64 : s.main_size + (s.nodes h).weight < 2 ^ 64)
    (hg64 : s.ghost_size + (s.nodes h).weight < 2 ^ 64) :
    ∃ s', evictSmallStep s = some s' ∧
      s'.small_size = s.small_size - (s.nodes h).weight ∧
      ((s.nodes h).freq > 0 →
        (s'.nodes h).queue = .main ∧ (s'.nodes h).freq = 0 ∧
        s'.main_size = s.main_size + (s.nodes h).weight ∧
        (s'.nodes h).weight = (s.nodes h).weight ∧
        s'.ghost_size = s.ghost_size) ∧
      ((s.nodes h).freq = 0 →
        (s'.nodes h).queue = .ghost ∧
        s'.ghost_size = s.ghost_size + (s.nodes h).weight ∧
        (s'.nodes h).data = [] ∧ (s'.nodes h).weight = (s.nodes h).weight ∧
        s'.main_size = s.main_size) := by
  obtain ⟨hud, huw, huf⟩ := unlink_dwf h s.nodes h
  cases hp : prev_node h s.nodes
  all_goals (
    simp only [evictSmallStep, hhead, pop_head, hp]
    rw [huf]
    by_cases hf : (s.nodes h).freq > 0
    · rw [if_pos hf]
      refine ⟨_, rfl, ?_, ?_, ?_⟩
      · rw [(promote_fields _ _).1]
        dsimp only
        rw [huw]
        exact w64sub_exact _ _ hwle hs64
      · intro _
        refine ⟨?_, ?_, ?_, ?_, ?_⟩
        · rw [(promote_fields _ _).2.2.2.1]
        · rw [(promote_fields _ _).2.2.2.2.1]
        · rw [(promote_fields _ _).2.2.1]
          dsimp only
          rw [huw]
          exact w64add_exact _ _ hm64
        · rw [(promote_fields _ _).2.2.2.2.2.1]
          dsimp only
          exact huw
        · rw [(promote_fields _ _).2.1]
      · intro h0
        exact absurd h0 (Nat.pos_iff_ne_zero.mp hf)
    · rw [if_neg hf]
      refine ⟨_, rfl, ?_, ?_, ?_⟩
      · rw [(demote_fields _ _).1]
        dsimp only
        rw [huw]
        exact w64sub_exact _ _ hwle hs64
      · intro hpos
        exact absurd hpos hf
      · intro _
        refine ⟨?_, ?_, ?_, ?_, ?_⟩
        · rw [(demote_fields _ _).2.2.2.1]
        · rw [(demote_fields _ _).2.2.1]
          dsimp only
          rw [huw]
          exact w64add_exact _ _ hg64
        · rw [(demote_fields _ _).2.2.2.2.1]
        · rw [(demote_fields _ _).2.2.2.2.2.1]
          dsimp only
          exact huw
        · rw [(demote_fields _ _).2.1])

def sW4 : CacheShard := { CacheShard.new 1 100 100 with
  map := [(0, 0)]
  nodes := updN (fun _ => default) 0
    (fun _ => { data := [1], weight := 5, next := 0, prev := 0, freq := 0, queue := .small })
  nodesLen := 1
  small_size := 5
  small_head := some 0 }

theorem c4_small_overflow_step_witness :
    sW4.small_head = some 0 ∧ sW4.small_size > sW4.small_threshold ∧
    (sW4.nodes 0).weight ≤ sW4.small_size ∧ sW4.small_size < 2 ^ 64 ∧
    sW4.main_size + (sW4.nodes 0).weight < 2 ^ 64 ∧
    sW4.ghost_size + (sW4.nodes 0).weight < 2 ^ 64 ∧
    (∃ s', evictSmallStep sW4 = some s' ∧
      s'.small_size = sW4.small_size - (sW4.nodes 0).weight ∧
      ((sW4.nodes 0).freq > 0 →
        (s'.nodes 0).queue = .main ∧ (s'.nodes 0).freq = 0 ∧
        s'.main_size = sW4.main_size + (sW4.nodes 0).weight ∧
        (s'.nodes 0).weight = (sW4.nodes 0).weight ∧
        s'.ghost_size = sW4.ghost_size) ∧
      ((sW4.nodes 0).freq = 0 →
        (s'.nodes 0).queue = .ghost ∧
        s'.ghost_size = sW4.ghost_size + (sW4.nodes 0).weight ∧
        (s'.nodes 0).data = [] ∧ (s'.nodes 0).weight = (sW4.nodes 0).weight ∧
        s'.main_size = sW4.main_size)) :=
  ⟨rfl, by decide, by decide, by decide, by decide, by decide,
    c4_small_overflow_step sW4 0 rfl (by decide) (by decide) (by decide) (by decide) (by decide)⟩

/-- C5: one Main-overflow step of the eviction cascade pops the Main head `h`:
if its freq was positive, the freq is decremented by exactly one and the node
is re-spliced at the front of Main (second chance) with `main_size`, the hash
index and the freelist unchanged — the head advances to the old head's `prev`
(or stays on `h` when it was the only member) and `h` becomes the youngest
neighbour of the new head (`head.next = h`, `h.prev = head`); otherwise
`main_size` drops by its weight, the slot is reset to the sentinel state and
pushed on the freelist, and its hash-index entry is removed. -/
theorem c5_main_overflow_step (s : CacheShard) (h : Nat)
    (hhead : s.main_head = some h)
    (hover : s.main_size > s.main_threshold)
    (hwle : (s.nodes h).weight ≤ s.main_size)
    (hm64 : s.main_size < 2 ^ 64) :
    ∃ s', evictMainStep s = some s' ∧
      ((s.nodes h).freq > 0 →
        s'.main_size = s.main_size ∧
        (s'.nodes h).freq = (s.nodes h).freq - 1 ∧
        (s'.nodes h).queue = .main ∧
        s'.map = s.map ∧ s'.freelist = s.freelist ∧
        ((s.nodes h).prev = h →
          s'.main_head = some h ∧ (s'.nodes h).next = h ∧ (s'.nodes h).prev = h) ∧
        ((s.nodes h).prev ≠ h →
          s'.main_head = some ((s.nodes h).prev) ∧
          (s'.nodes ((s.nodes h).prev)).next = h ∧
          (s'.nodes h).prev = (s.nodes h).prev)) ∧
      ((s.nodes h).freq = 0 →
        s'.main_size = s.main_size - (s.nodes h).weight ∧
        (s'.nodes h).data = [] ∧ (s'.nodes h).weight = 0 ∧
        (s'.nodes h).freq = 0 ∧ (s'.nodes h).next = U32MAX ∧
        (s'.nodes h).prev = U32MAX ∧ (s'.nodes h).queue = .noQueue ∧
        s'.freelist = h :: s.freelist ∧
        s'.map = mapRemoveIdx s.map h) := by
  obtain ⟨hud, huw, huf⟩ := unlink_dwf h s.nodes h
  cases hp : prev_node h s.nodes with
  | none =>
    have hph : (s.nodes h).prev = h := by
      unfold prev_node at hp
      split at hp
      · assumption
      · simp at hp
    simp only [evictMainStep, hhead, pop_head, hp]
    rw [huf]
    by_cases hf : (s.nodes h).freq > 0
    · rw [if_pos hf]
      refine ⟨_, rfl, ?_, ?_⟩
      · intro _
        refine ⟨rfl, ?_, ?_, rfl, rfl, ?_, ?_⟩
        · rw [(move_dwf _ _ _ _ _).2.2]
          rw [updN_same]
          dsimp only
          rw [huf]
        · dsimp only
          exact move_queue_self _ _ _ _
        · intro _
          refine ⟨rfl, ?_, ?_⟩
          · dsimp only [move_to_queue]
            rw [updN_same]
            dsimp only
            rw [updN_same]
            dsimp only
            exact (unlink_self_links h s.nodes).1
          · dsimp only [move_to_queue]
            rw [updN_same]
            dsimp only
            rw [updN_same]
            dsimp only
            exact (unlink_self_links h s.nodes).2
        · intro hcon
          exact absurd hph hcon
      · intro h0
        exact absurd h0 (Nat.pos_iff_ne_zero.mp hf)
    · rw [if_neg hf]
      refine ⟨_, rfl, ?_, ?_⟩
      · intro hpos
        exact absurd hpos hf
      · intro _
        obtain ⟨he1, he2, he3, he4, he5, he6⟩ := evict_node_fields h (unlink_node h s.nodes)
        dsimp only [handle_node_eviction]
        refine ⟨?_, ?_, ?_, ?_, ?_, ?_, ?_, rfl, rfl⟩
        · rw [huw]
          exact w64sub_exact _ _ hwle hm64
        · exact he1
        · exact he2
        · exact he3
        · exact he4
        · exact he5
        · rw [he6]
          exact unlink_queue_self _ _
  | some p =>
    have hpe : p = (s.nodes h).prev := by
      unfold prev_node at hp
      split at hp
      · simp at hp
      · injection hp with he
        exact he.symm
    have hne : (s.nodes h).prev ≠ h := by
      unfold prev_node at hp
      split at hp
      · simp at hp
      · assumption
    subst hpe
    simp only [evictMainStep, hhead, pop_head, hp]
    rw [huf]
    by_cases hf : (s.nodes h).freq > 0
    · rw [if_pos hf]
      refine ⟨_, rfl, ?_, ?_⟩
      · intro _
        refine ⟨rfl, ?_, ?_, rfl, rfl, ?_, ?_⟩
        · rw [(move_dwf _ _ _ _ _).2.2]
          rw [updN_same]
          dsimp only
          rw [huf]
        · dsimp only
          exact move_queue_self _ _ _ _
        · intro hcon
          exact absurd hcon hne
        · intro _
          refine ⟨rfl, ?_, ?_⟩
          · dsimp only [move_to_queue]
            rw [updN_same]
          · dsimp only [move_to_queue]
            rw [updN_other _ _ _ _ (Ne.symm hne)]
            rw [updN_same]
            dsimp only
            rw [updN_same]
      · intro h0
        exact absurd h0 (Nat.pos_iff_ne_zero.mp hf)
    · rw [if_neg hf]
      refine ⟨_, rfl, ?_, ?_⟩
      · intro hpos
        exact absurd hpos hf
      · intro _
        obtain ⟨he1, he2, he3, he4, he5, he6⟩ := evict_node_fields h (unlink_node h s.nodes)
        dsimp only [handle_node_eviction]
        refine ⟨?_, ?_, ?_, ?_, ?_, ?_, ?_, rfl, rfl⟩
        · rw [huw]
          exact w64sub_exact _ _ hwle hm64
        · exact he1
        · exact he2
        · exact he3
        · exact he4
        · exact he5
        · rw [he6]
          exact unlink_queue_self _ _

def sW5 : CacheShard := { CacheShard.new 100 1 100 with
  map := [(0, 0), (1, 1)]
  nodes := updN (updN (fun _ => default) 0
      (fun _ => { data := [1], weight := 1, next := 1, prev := 1, freq := 1, queue := .main }))
    1 (fun _ => { data := [2], weight := 1, next := 0, prev := 0, freq := 0, queue := .main })
  nodesLen := 2
  main_size := 2
  main_head := some 0 }

theorem c5_main_overflow_step_witness :
    sW5.main_head = some 0 ∧ sW5.main_size > sW5.main_threshold ∧
    (sW5.nodes 0).weight ≤ sW5.main_size ∧ sW5.main_size < 2 ^ 64 ∧
    (∃ s', evictMainStep sW5 = some s' ∧
      ((sW5.nodes 0).freq > 0 →
        s'.main_size = sW5.main_size ∧
        (s'.nodes 0).freq = (sW5.nodes 0).freq - 1 ∧
        (s'.nodes 0).queue = .main ∧
        s'.map = sW5.map ∧ s'.freelist = sW5.freelist ∧
        ((sW5.nodes 0).prev = 0 →
          s'.main_head = some 0 ∧ (s'.nodes 0).next = 0 ∧ (s'.nodes 0).prev = 0) ∧
        ((sW5.nodes 0).prev ≠ 0 →
          s'.main_head = some ((sW5.nodes 0).prev) ∧
          (s'.nodes ((sW5.nodes 0).prev)).next = 0 ∧
          (s'.nodes 0).prev = (sW5.nodes 0).prev)) ∧
      ((sW5.nodes 0).freq = 0 →
        s'.main_size = sW5.main_size - (sW5.nodes 0).weight ∧
        (s'.nodes 0).data = [] ∧ (s'.nodes 0).weight = 0 ∧
        (s'.nodes 0).freq = 0 ∧ (s'.nodes 0).next = U32MAX ∧
        (s'.nodes 0).prev = U32MAX ∧ (s'.nodes 0).queue = .noQueue ∧
        s'.freelist = 0 :: sW5.freelist ∧
        s'.map = mapRemoveIdx sW5.map 0)) :=
  ⟨rfl, by decide, by decide, by decide,
    c5_main_overflow_step sW5 0 rfl (by decide) (by decide) (by decide)⟩

/-! ### `AlsoCache::with` threshold computation (`cache.rs` lines 82–84)

The source computes `(size as f64 * 0.1) as usize` and
`(size as f64 * 0.9) as usize` (the **ghost** threshold also uses `0.9`).
The f64 literals have the exact dyadic values
`0.1 = 3602879701896397 / 2^55` and `0.9 = 8106479329266893 / 2^53`; both the
`usize → f64` conversion and the multiplication round to nearest, ties to
even, at 53 significant bits, and the final `as usize` cast truncates toward
zero.  `roundSig53` implements that rounding on natural numerators (the
exponent range of f64 is never exceeded for `usize` budgets). -/

def bitLenAux : Nat → Nat → Nat
  | 0, _ => 0
  | fuel + 1, n => if n = 0 then 0 else bitLenAux fuel (n / 2) + 1

/-- Number of binary digits of `n`. -/
def bitLen (n : Nat) : Nat := bitLenAux n n

/-- Round `n` to 53 significant bits, to nearest, ties to even — the IEEE-754
double rounding of the integer value `n` (and of any dyadic `n / 2^s`). -/
def roundSig53 (n : Nat) : Nat :=
  if bitLen n ≤ 53 then n
  else
    let shift := bitLen n - 53
    let q := n / 2 ^ shift
    let r := n % 2 ^ shift
    let half := 2 ^ (shift - 1)
    let q2 := if half < r ∨ (r = half ∧ q % 2 = 1) then q + 1 else q
    q2 * 2 ^ shift

/-- `((b as f64) * (m / 2^s)) as usize` where `m / 2^s` is the exact value of
an f64 constant: convert `b` (one rounding), multiply (one rounding), truncate. -/
def f64prod_trunc (b m s : Nat) : Nat := roundSig53 (roundSig53 b * m) / 2 ^ s

/-- `small_threshold: (size as f64 * 0.1) as usize` (`cache.rs` line 82). -/
def small_threshold_of (size : Nat) : Nat := f64prod_trunc size 3602879701896397 55

/-- `main_threshold: (size as f64 * 0.9) as usize` (`cache.rs` line 83). -/
def main_threshold_of (size : Nat) : Nat := f64prod_trunc size 8106479329266893 53

/-- `ghost_threshold: (size as f64 * 0.9) as usize` (`cache.rs` line 84 —
note the ratio is 0.9, the same as Main's, not 0.6). -/
def ghost_threshold_of (size : Nat) : Nat := f64prod_trunc size 8106479329266893 53

/-- The three thresholds stored by `AlsoCache::with size`. -/
def also_with_thresholds (size : Nat) : Nat × Nat × Nat :=
  (small_threshold_of size, main_threshold_of size, ghost_threshold_of size)

/-- C8 (counterexample): at budget `B = 10` the constructor's ghost threshold
is `9 = ⌊0.90·B⌋`, not the claimed `6 = 0.60·B`; and at budget `B = 5` the
small threshold is `0`, refuting the claimed `≥ 1` lower bound. -/
theorem c8_counterexample :
    ghost_threshold_of 10 = 9 ∧ ghost_threshold_of 10 ≠ 6 ∧
    small_threshold_of 5 = 0 ∧ ¬ 1 ≤ small_threshold_of 5 := by
  refine ⟨by decide, by decide, by decide, by decide⟩

/-- C8 (amended): for every budget `B`, `AlsoCache::with` sets
Small = `(B as f64 * 0.1) as usize`, Main = `(B as f64 * 0.9) as usize`, and
Ghost identical to Main (ratio 0.90, not 0.60); there is no `≥ 1` clamp, so
small budgets yield threshold 0 (e.g. `B = 5` gives Small 0, and `B = 0`
gives all three 0). -/
theorem c8_amended :
    (∀ size : Nat, ghost_threshold_of size = main_threshold_of size) ∧
    small_threshold_of 10 = 1 ∧ main_threshold_of 10 = 9 ∧
    ghost_threshold_of 10 = 9 ∧ small_threshold_of 5 = 0 ∧
    also_with_thresholds 0 = (0, 0, 0) :=
  ⟨fun _ => rfl, by decide, by decide, by decide, by decide, by decide⟩

def sW10 : CacheShard := { CacheShard.new 100 100 100 with
  map := [(0, 0)]
  nodes := updN (fun _ => default) 0
    (fun _ => { data := [9], weight := 5, next := 0, prev := 0, freq := 0, queue := .small })
  nodesLen := 1
  small_size := 5
  small_head := some 0 }

theorem c10_update_size_arithmetic_witness :
    mapFind sW10.map 0 = some 0 ∧ (3 : Nat) < 2 ^ 64 ∧
    (sW10.nodes 0).queue = .small ∧ (sW10.nodes 0).weight ≤ sW10.small_size ∧
    sW10.small_size < 2 ^ 64 ∧
    (insert_bytes_update sW10 0 3 [7]).small_size =
      (sW10.small_size - (sW10.nodes 0).weight + 3) % 2 ^ 64 :=
  ⟨by decide, by decide, by decide, by decide, by decide,
    (c10_update_size_arithmetic sW10 0 3 0 [7] (by decide) (by decide)).1
      (by decide) (by decide) (by decide)⟩

/-! ### Well-formed circular queues and `pop_head` (claim C9)

A queue is represented by the list of its member indices starting at the head
and following `prev` (oldest, second-oldest, …, youngest): `prev` steps down
the list and wraps from the last element back to the head, and `next` is its
inverse. -/

theorem unlink_prev_of_ne (i : Nat) (ns : Nat → Node) (x : Nat)
    (hxi : x ≠ i) (hxn : x ≠ (ns i).next) :
    ((unlink_node i ns) x).prev = (ns x).prev := by
  rw [unlink_eq, updN_other _ _ _ _ hxi, updN_other _ _ _ _ hxn,
    updN_pres_prev _ _ _ (by exact fun _ => rfl),
    updN_pres_prev _ _ _ (by exact fun _ => rfl)]

theorem unlink_next_of_ne (i : Nat) (ns : Nat → Node) (x : Nat)
    (hxi : x ≠ i) (hxp : x ≠ (ns i).prev) :
    ((unlink_node i ns) x).next = (ns x).next := by
  rw [unlink_eq, updN_other _ _ _ _ hxi,
    updN_pres_next _ _ _ (by exact fun _ => rfl),
    updN_other _ _ _ _ hxp,
    updN_pres_next _ _ _ (by exact fun _ => rfl)]

theorem unlink_prev_at_next (i : Nat) (ns : Nat → Node)
    (hni : (ns i).next ≠ i) :
    ((unlink_node i ns) ((ns i).next)).prev = (ns i).prev := by
  rw [unlink_eq, updN_other _ _ _ _ hni, updN_same]

theorem unlink_next_at_prev (i : Nat) (ns : Nat → Node)
    (hpi : (ns i).prev ≠ i) :
    ((unlink_node i ns) ((ns i).prev)).next = (ns i).next := by
  rw [unlink_eq, updN_other _ _ _ _ hpi]
  by_cases hpn : (ns i).prev = (ns i).next
  · rw [hpn, updN_same]
    dsimp only
    rw [updN_same]
  · rw [updN_other _ _ _ _ hpn, updN_same]

theorem mem_of_getLastQ {l : List Nat} {x : Nat} (h : x ∈ l.getLast?) : x ∈ l := by
  obtain ⟨hne, hx⟩ := List.mem_getLast?_eq_getLast h
  rw [hx]
  exact List.getLast_mem hne

/-- A chain can be transported along a relation implication that only needs to
hold on members of the list. -/
theorem chain'_imp_mem {α : Type} {R S : α → α → Prop} :
    ∀ {l : List α}, (∀ x ∈ l, ∀ y ∈ l, R x y → S x y) → l.Chain' R → l.Chain' S := by
  intro l
  induction l with
  | nil => intro _ _; exact List.chain'_nil
  | cons x rest ih =>
    intro himp hc
    rw [List.chain'_cons'] at hc ⊢
    obtain ⟨h1, h2⟩ := hc
    refine ⟨?_, ?_⟩
    · intro y hy
      have hyl : y ∈ rest := by
        cases rest with
        | nil => simp at hy
        | cons r rs =>
          have hry : r = y := by simpa using hy
          rw [← hry]
          exact List.mem_cons_self r rs
      exact himp x (List.mem_cons_self _ _) y (List.mem_cons_of_mem _ hyl) (h1 y hy)
    · exact ih (fun u hu v hv hr =>
        himp u (List.mem_cons_of_mem _ hu) v (List.mem_cons_of_mem _ hv) hr) h2

/-- Well-formed circular queue: `L` lists the members from the head (oldest)
following `prev`; `prev` steps down the list and wraps from the last member
to the head, `next` is its inverse, all members carry the queue's tag, and
members are distinct. -/
def WFQ (ns : Nat → Node) (qid : QueueTypeId) (L : List Nat) : Prop :=
  L.Nodup ∧
  (∀ j ∈ L, (ns j).queue = qid) ∧
  List.Chain' (fun x y => (ns x).prev = y) L ∧
  (∀ z, L.getLast? = some z → ∀ hh, L.head? = some hh → (ns z).prev = hh) ∧
  List.Chain' (fun x y => (ns y).next = x) L ∧
  (∀ z, L.getLast? = some z → ∀ hh, L.head? = some hh → (ns hh).next = z)

/-- C9: `pop_head` on a well-formed circular queue.  Empty queue: returns
`none`, changes nothing.  Singleton: sets the head to `None`, self-links the
node and clears its queue tag, returns it.  Otherwise: advances the head to
the old head's `prev` (the second-oldest member), unlinks and returns the old
head, and the remaining members form a well-formed queue with one member
fewer. -/
theorem pop_head_spec (ns : Nat → Node) (qid : QueueTypeId) (L : List Nat)
    (hwf : WFQ ns qid L) :
    (L = [] → pop_head ns L.head? = (none, ns, none)) ∧
    (∀ a, L = [a] →
      (pop_head ns L.head?).1 = some a ∧
      (pop_head ns L.head?).2.2 = none ∧
      ((pop_head ns L.head?).2.1 a).next = a ∧
      ((pop_head ns L.head?).2.1 a).prev = a ∧
      ((pop_head ns L.head?).2.1 a).queue = .noQueue ∧
      WFQ (pop_head ns L.head?).2.1 qid []) ∧
    (∀ a b t, L = a :: b :: t →
      (pop_head ns L.head?).1 = some a ∧
      (pop_head ns L.head?).2.2 = some b ∧
      ((pop_head ns L.head?).2.1 a).next = a ∧
      ((pop_head ns L.head?).2.1 a).prev = a ∧
      ((pop_head ns L.head?).2.1 a).queue = .noQueue ∧
      WFQ (pop_head ns L.head?).2.1 qid (b :: t)) := by
  obtain ⟨hnd, hq, hpc, hpw, hnc, hnw⟩ := hwf
  refine ⟨?_, ?_, ?_⟩
  · rintro rfl
    rfl
  · rintro a rfl
    have hpa : (ns a).prev = a := hpw a (by simp) a rfl
    have hres : pop_head ns ([a] : List Nat).head? = (some a, unlink_node a ns, none) := by
      simp [pop_head, prev_node, hpa]
    rw [hres]
    refine ⟨rfl, rfl, (unlink_self_links a ns).1, (unlink_self_links a ns).2,
      unlink_queue_self a ns,
      List.nodup_nil, by simp, List.chain'_nil, ?_, List.chain'_nil, ?_⟩
    · intro z hz
      simp at hz
    · intro z hz
      simp at hz
  · rintro a b t rfl
    have hna : a ∉ b :: t := (List.nodup_cons.mp hnd).1
    have hnd2 : (b :: t).Nodup := (List.nodup_cons.mp hnd).2
    have hab : (ns a).prev = b := (List.chain'_cons.mp hpc).1
    have hpc2 : List.Chain' (fun x y => (ns x).prev = y) (b :: t) :=
      (List.chain'_cons.mp hpc).2
    have hba : b ≠ a := by
      intro hh
      apply hna
      rw [← hh]
      exact List.mem_cons_self b t
    have hbt_ne : (b :: t) ≠ [] := List.cons_ne_nil b t
    have hzlast : (b :: t).getLast? = some ((b :: t).getLast hbt_ne) :=
      List.getLast?_eq_getLast_of_ne_nil hbt_ne
    set z := (b :: t).getLast hbt_ne with hzdef
    have hz_mem : z ∈ b :: t := List.getLast_mem hbt_ne
    have hz_ne_a : z ≠ a := by
      intro hh
      apply hna
      rw [← hh]
      exact hz_mem
    have hLlast : (a :: b :: t).getLast? = some z := by
      rw [List.getLast?_cons_cons]
      exact hzlast
    have hnext_a : (ns a).next = z := hnw z hLlast a rfl
    have hres : pop_head ns (a :: b :: t).head? = (some a, unlink_node a ns, some b) := by
      have hpn : prev_node a ns = some b := by
        unfold prev_node
        rw [hab, if_neg hba]
      simp [pop_head, hpn]
    rw [hres]
    have hprev_z : ((unlink_node a ns) z).prev = b := by
      have hx := unlink_prev_at_next a ns (by rw [hnext_a]; exact hz_ne_a)
      rw [hnext_a, hab] at hx
      exact hx
    have hnext_b : ((unlink_node a ns) b).next = z := by
      have hx := unlink_next_at_prev a ns (by rw [hab]; exact hba)
      rw [hab, hnext_a] at hx
      exact hx
    refine ⟨rfl, rfl, (unlink_self_links a ns).1, (unlink_self_links a ns).2,
      unlink_queue_self a ns, hnd2, ?_, ?_, ?_, ?_, ?_⟩
    · -- queue tags survive on the remaining members
      intro j hj
      have hja : j ≠ a := by
        intro hh
        apply hna
        rw [← hh]
        exact hj
      rw [unlink_queue_other a ns j hja]
      exact hq j (List.mem_cons_of_mem a hj)
    · -- prev chain on the remaining members
      have hmid : (b :: t).dropLast ++ [z] = b :: t := List.dropLast_append_getLast hbt_ne
      have hz_not_mid : z ∉ (b :: t).dropLast := by
        have hnodup2 : ((b :: t).dropLast ++ [z]).Nodup := by
          rw [hmid]
          exact hnd2
        have hdisj := List.disjoint_of_nodup_append hnodup2
        intro hh
        exact hdisj hh (List.mem_singleton_self z)
      have hmid_sub : ∀ x ∈ (b :: t).dropLast, x ∈ b :: t := by
        intro x hx
        rw [← hmid]
        exact List.mem_append_left _ hx
      have hpcm : List.Chain' (fun x y => (ns x).prev = y) ((b :: t).dropLast ++ [z]) := by
        rw [hmid]
        exact hpc2
      obtain ⟨hcm, _, hbridge⟩ := List.chain'_append.mp hpcm
      rw [← hmid]
      apply List.chain'_append.mpr
      refine ⟨?_, List.chain'_singleton z, ?_⟩
      · apply chain'_imp_mem ?_ hcm
        intro x hx y _ hr
        have hxa : x ≠ a := by
          intro hh
          apply hna
          rw [← hh]
          exact hmid_sub x hx
        have hxz : x ≠ (ns a).next := by
          rw [hnext_a]
          intro hh
          apply hz_not_mid
          rw [← hh]
          exact hx
        rw [unlink_prev_of_ne a ns x hxa hxz]
        exact hr
      · intro x hx y hy
        have hxm : x ∈ (b :: t).dropLast := mem_of_getLastQ hx
        have hxa : x ≠ a := by
          intro hh
          apply hna
          rw [← hh]
          exact hmid_sub x hxm
        have hxz : x ≠ (ns a).next := by
          rw [hnext_a]
          intro hh
          apply hz_not_mid
          rw [← hh]
          exact hxm
        have hzy : z = y := by simpa using hy
        rw [unlink_prev_of_ne a ns x hxa hxz, ← hzy]
        exact hbridge x hx z (by simp)
    · -- prev wrap on the remaining members
      intro z' hz' hh hhh
      rw [hzlast] at hz'
      injection hz' with hze
      simp only [List.head?_cons] at hhh
      injection hhh with hhe
      rw [← hze, ← hhe]
      exact hprev_z
    · -- next chain on the remaining members
      rw [List.chain'_cons']
      constructor
      · intro y hy
        cases t with
        | nil => simp at hy
        | cons t0 t' =>
          have hyt : t0 = y := by simpa using hy
          have hy_ne_a : y ≠ a := by
            intro hh
            apply hna
            rw [← hh, ← hyt]
            exact List.mem_cons_of_mem b (List.mem_cons_self t0 t')
          have hy_ne_b : y ≠ b := by
            intro hh
            have hbnot := (List.nodup_cons.mp hnd2).1
            apply hbnot
            rw [← hh, ← hyt]
            exact List.mem_cons_self t0 t'
          rw [unlink_next_of_ne a ns y hy_ne_a (by rw [hab]; exact hy_ne_b), ← hyt]
          exact (List.chain'_cons.mp (List.chain'_cons.mp hnc).2).1
      · have hnct : List.Chain' (fun x y => (ns y).next = x) t :=
          (List.chain'_cons'.mp (List.chain'_cons.mp hnc).2).2
        apply chain'_imp_mem ?_ hnct
        intro x _ y hy hr
        have hy_ne_a : y ≠ a := by
          intro hh
          apply hna
          rw [← hh]
          exact List.mem_cons_of_mem b hy
        have hy_ne_b : y ≠ b := by
          intro hh
          have hbnot := (List.nodup_cons.mp hnd2).1
          apply hbnot
          rw [← hh]
          exact hy
        rw [unlink_next_of_ne a ns y hy_ne_a (by rw [hab]; exact hy_ne_b)]
        exact hr
    · -- next wrap on the remaining members
      intro z' hz' hh hhh
      rw [hzlast] at hz'
      injection hz' with hze
      simp only [List.head?_cons] at hhh
      injection hhh with hhe
      rw [← hze, ← hhe]
      exact hnext_b

def nsW9 : Nat → Node :=
  updN (updN (fun _ => default) 0
      (fun _ => { data := [1], weight := 1, next := 1, prev := 1, freq := 0, queue := .small }))
    1 (fun _ => { data := [2], weight := 1, next := 0, prev := 0, freq := 0, queue := .small })

theorem c9_pop_head_spec_witness :
    WFQ nsW9 .small [0, 1] ∧
    ((pop_head nsW9 ([0, 1] : List Nat).head?).1 = some 0 ∧
      (pop_head nsW9 ([0, 1] : List Nat).head?).2.2 = some 1 ∧
      ((pop_head nsW9 ([0, 1] : List Nat).head?).2.1 0).next = 0 ∧
      ((pop_head nsW9 ([0, 1] : List Nat).head?).2.1 0).prev = 0 ∧
      ((pop_head nsW9 ([0, 1] : List Nat).head?).2.1 0).queue = .noQueue ∧
      WFQ (pop_head nsW9 ([0, 1] : List Nat).head?).2.1 .small [1]) := by
  have hwfq : WFQ nsW9 .small [0, 1] := by
    refine ⟨by decide, ?_, ?_, ?_, ?_, ?_⟩
    · intro j hj
      fin_cases hj <;> decide
    · exact List.chain'_cons.mpr ⟨by decide, List.chain'_singleton _⟩
    · intro z hz hh hhh
      injection hz with hze
      injection hhh with hhe
      rw [← hze, ← hhe]
      decide
    · exact List.chain'_cons.mpr ⟨by decide, List.chain'_singleton _⟩
    · intro z hz hh hhh
      injection hz with hze
      injection hhh with hhe
      rw [← hze, ← hhe]
      decide
  exact ⟨hwfq, (pop_head_spec nsW9 .small [0, 1] hwfq).2.2 0 1 [] rfl⟩

/-! ### Insert-then-get (claim C6)

The only writes the eviction cascade performs on a node's `data` field clear
it (demotion and freeing); it never repopulates data, and it only removes
hash-index entries, never adds or redirects them.  So after
`insert_bytes k w v`, the slot `k` maps to either keeps `data = v` or was
cleared — and if it still holds data, `get_bytes k` returns exactly `v`. -/

/-- Slot `i` holds the inserted bytes `v`, or has been cleared. -/
def DOK (i : Nat) (v : List Nat) (ns : Nat → Node) : Prop :=
  (ns i).data = v ∨ (ns i).data = []

/-- The hash index has at most one entry for key `k`, and it resolves to `i`
if it resolves at all. -/
def MOK (k i : Nat) (m : List (Nat × Nat)) : Prop :=
  m.countP (fun p => p.1 == k) ≤ 1 ∧
  (mapFind m k = none ∨ mapFind m k = some i)

/-- The invariant carried through the eviction cascade. -/
def InvKV (k i : Nat) (v : List Nat) (s : CacheShard) : Prop :=
  MOK k i s.map ∧ DOK i v s.nodes

theorem dok_updN {i : Nat} {v : List Nat} {ns : Nat → Node} {j : Nat} {g : Node → Node}
    (hg : ∀ n, (g n).data = n.data ∨ (g n).data = []) (h : DOK i v ns) :
    DOK i v (updN ns j g) := by
  unfold DOK updN at *
  by_cases hij : i = j
  · subst hij
    rw [if_pos rfl]
    rcases hg (ns i) with hg1 | hg1
    · rw [hg1]
      exact h
    · rw [hg1]
      exact Or.inr rfl
  · rw [if_neg hij]
    exact h

theorem dok_unlink {i : Nat} {v : List Nat} {ns : Nat → Node} (j : Nat) (h : DOK i v ns) :
    DOK i v (unlink_node j ns) := by
  simp only [unlink_node]
  exact dok_updN (fun _ => Or.inl rfl) (dok_updN (fun _ => Or.inl rfl)
    (dok_updN (fun _ => Or.inl rfl) (dok_updN (fun _ => Or.inl rfl) h)))

theorem dok_move {i : Nat} {v : List Nat} {ns : Nat → Node} (q : QueueTypeId) (j : Nat)
    (hd : Option Nat) (h : DOK i v ns) : DOK i v (move_to_queue q j ns hd).1 := by
  cases hd
  · simp only [move_to_queue]
    exact dok_updN (fun _ => Or.inl rfl) h
  · simp only [move_to_queue]
    exact dok_updN (fun _ => Or.inl rfl) (dok_updN (fun _ => Or.inl rfl)
      (dok_updN (fun _ => Or.inl rfl) (dok_updN (fun _ => Or.inl rfl)
        (dok_updN (fun _ => Or.inl rfl) h))))

theorem dok_evict {i : Nat} {v : List Nat} {ns : Nat → Node} (j : Nat) (h : DOK i v ns) :
    DOK i v (evict_node j ns) := by
  simp only [evict_node]
  exact dok_updN (fun _ => Or.inr rfl) h

theorem countP_zero_of_find_none {m : List (Nat × Nat)} {k : Nat}
    (h : mapFind m k = none) : m.countP (fun p => p.1 == k) = 0 := by
  unfold mapFind at h
  rw [Option.map_eq_none'] at h
  rw [List.countP_eq_zero]
  intro p hp
  exact List.find?_eq_none.mp h p hp

/-- Removing one entry from a map with at most one `k`-entry either leaves the
`k`-lookup unchanged or makes it `none`. -/
theorem find_eraseP_cases (k : Nat) (q : Nat × Nat → Bool) :
    ∀ (m : List (Nat × Nat)), m.countP (fun p => p.1 == k) ≤ 1 →
      mapFind (m.eraseP q) k = none ∨ mapFind (m.eraseP q) k = mapFind m k := by
  intro m
  induction m with
  | nil =>
    intro _
    left
    rfl
  | cons p rest ih =>
    intro hc
    rw [List.countP_cons] at hc
    by_cases hq : q p = true
    · rw [List.eraseP_cons_of_pos hq]
      by_cases hk : (p.1 == k) = true
      · left
        have hcrest : rest.countP (fun x => x.1 == k) = 0 := by
          rw [if_pos hk] at hc
          omega
        unfold mapFind
        rw [Option.map_eq_none', List.find?_eq_none]
        intro x hx
        have h0 := List.countP_eq_zero.mp hcrest x hx
        simpa using h0
      · right
        have hkf : (p.1 == k) = false := by simpa using hk
        unfold mapFind
        simp only [List.find?_cons, hkf]
    · rw [List.eraseP_cons_of_neg hq]
      by_cases hk : (p.1 == k) = true
      · right
        unfold mapFind
        simp only [List.find?_cons, hk]
      · have hkf : (p.1 == k) = false := by simpa using hk
        have hc2 : rest.countP (fun x => x.1 == k) ≤ 1 := by
          rw [if_neg hk] at hc
          omega
        rcases ih hc2 with h1 | h1
        · left
          unfold mapFind at h1 ⊢
          simp only [List.find?_cons, hkf]
          exact h1
        · right
          unfold mapFind at h1 ⊢
          simp only [List.find?_cons, hkf]
          exact h1

theorem mok_removeIdx {k i : Nat} {m : List (Nat × Nat)} (j : Nat) (h : MOK k i m) :
    MOK k i (mapRemoveIdx m j) := by
  obtain ⟨hc, hf⟩ := h
  constructor
  · exact le_trans (List.Sublist.countP_le _ (List.eraseP_sublist m)) hc
  · rcases find_eraseP_cases k _ m hc with h1 | h1
    · left
      exact h1
    · rw [mapRemoveIdx, h1]
      exact hf

theorem invkv_promote {k i : Nat} {v : List Nat} (s : CacheShard) (j : Nat)
    (h : InvKV k i v s) : InvKV k i v (promote_to_main s j) := by
  obtain ⟨hm, hd⟩ := h
  constructor
  · rw [(promote_fields s j).2.2.2.2.2.2.2.1]
    exact hm
  · unfold promote_to_main
    dsimp only
    exact dok_move _ _ _ (dok_updN (fun _ => Or.inl rfl) hd)

theorem invkv_demote {k i : Nat} {v : List Nat} (s : CacheShard) (j : Nat)
    (h : InvKV k i v s) : InvKV k i v (demote_to_ghost s j) := by
  obtain ⟨hm, hd⟩ := h
  constructor
  · rw [(demote_fields s j).2.2.2.2.2.2.1]
    exact hm
  · unfold demote_to_ghost
    dsimp only
    exact dok_updN (fun _ => Or.inr rfl) (dok_move _ _ _ hd)

theorem invkv_handle {k i : Nat} {v : List Nat} (s : CacheShard) (j : Nat)
    (h : InvKV k i v s) : InvKV k i v (handle_node_eviction s j) := by
  obtain ⟨hm, hd⟩ := h
  exact ⟨mok_removeIdx j hm, hd⟩

theorem invkv_smallStep {k i : Nat} {v : List Nat} (s s' : CacheShard)
    (hstep : evictSmallStep s = some s') (h : InvKV k i v s) : InvKV k i v s' := by
  obtain ⟨hm, hd⟩ := h
  unfold evictSmallStep at hstep
  cases hh : s.small_head with
  | none =>
    rw [hh] at hstep
    simp [pop_head] at hstep
  | some a =>
    rw [hh] at hstep
    cases hp : prev_node a s.nodes
    all_goals (
      simp only [pop_head, hp] at hstep
      split at hstep
      · injection hstep with he
        rw [← he]
        exact invkv_promote _ _ ⟨hm, dok_unlink a hd⟩
      · injection hstep with he
        rw [← he]
        exact invkv_demote _ _ ⟨hm, dok_unlink a hd⟩)

theorem invkv_ghostStep {k i : Nat} {v : List Nat} (s s' : CacheShard)
    (hstep : evictGhostStep s = some s') (h : InvKV k i v s) : InvKV k i v s' := by
  obtain ⟨hm, hd⟩ := h
  unfold evictGhostStep at hstep
  cases hh : s.ghost_head with
  | none =>
    rw [hh] at hstep
    simp [pop_head] at hstep
  | some a =>
    rw [hh] at hstep
    cases hp : prev_node a s.nodes
    all_goals (
      simp only [pop_head, hp] at hstep
      split at hstep
      · injection hstep with he
        rw [← he]
        exact invkv_promote _ _ ⟨hm, dok_unlink a hd⟩
      · injection hstep with he
        rw [← he]
        exact invkv_handle _ _ ⟨hm, dok_evict a (dok_unlink a hd)⟩)

theorem invkv_mainStep {k i : Nat} {v : List Nat} (s s' : CacheShard)
    (hstep : evictMainStep s = some s') (h : InvKV k i v s) : InvKV k i v s' := by
  obtain ⟨hm, hd⟩ := h
  unfold evictMainStep at hstep
  cases hh : s.main_head with
  | none =>
    rw [hh] at hstep
    simp [pop_head] at hstep
  | some a =>
    rw [hh] at hstep
    cases hp : prev_node a s.nodes
    all_goals (
      simp only [pop_head, hp] at hstep
      split at hstep
      · injection hstep with he
        rw [← he]
        exact ⟨hm, dok_move _ _ _ (dok_updN (fun _ => Or.inl rfl) (dok_unlink a hd))⟩
      · injection hstep with he
        rw [← he]
        exact invkv_handle _ _ ⟨hm, dok_evict a (dok_unlink a hd)⟩)

theorem invkv_small_loop {k i : Nat} {v : List Nat} :
    ∀ (fuel : Nat) (s s' : CacheShard),
      evict_small_if_needed fuel s = some s' → InvKV k i v s → InvKV k i v s' := by
  intro fuel
  induction fuel with
  | zero =>
    intro s s' hstep h
    simp [evict_small_if_needed] at hstep
  | succ n ih =>
    intro s s' hstep h
    simp only [evict_small_if_needed] at hstep
    split at hstep
    · cases hs : evictSmallStep s with
      | none =>
        rw [hs] at hstep
        simp at hstep
      | some s2 =>
        rw [hs] at hstep
        exact ih s2 s' hstep (invkv_smallStep s s2 hs h)
    · injection hstep with he
      rw [← he]
      exact h

theorem invkv_ghost_loop {k i : Nat} {v : List Nat} :
    ∀ (fuel : Nat) (s s' : CacheShard),
      evict_ghost_if_needed fuel s = some s' → InvKV k i v s → InvKV k i v s' := by
  intro fuel
  induction fuel with
  | zero =>
    intro s s' hstep h
    simp [evict_ghost_if_needed] at hstep
  | succ n ih =>
    intro s s' hstep h
    simp only [evict_ghost_if_needed] at hstep
    split at hstep
    · cases hs : evictGhostStep s with
      | none =>
        rw [hs] at hstep
        simp at hstep
      | some s2 =>
        rw [hs] at hstep
        exact ih s2 s' hstep (invkv_ghostStep s s2 hs h)
    · injection hstep with he
      rw [← he]
      exact h

theorem invkv_main_loop {k i : Nat} {v : List Nat} :
    ∀ (fuel : Nat) (s s' : CacheShard),
      evict_main_if_needed fuel s = some s' → InvKV k i v s → InvKV k i v s' := by
  intro fuel
  induction fuel with
  | zero =>
    intro s s' hstep h
    simp [evict_main_if_needed] at hstep
  | succ n ih =>
    intro s s' hstep h
    simp only [evict_main_if_needed] at hstep
    split at hstep
    · cases hs : evictMainStep s with
      | none =>
        rw [hs] at hstep
        simp at hstep
      | some s2 =>
        rw [hs] at hstep
        exact ih s2 s' hstep (invkv_mainStep s s2 hs h)
    · injection hstep with he
      rw [← he]
      exact h

theorem allocate_small_map (s : CacheShard) (d : Nat) (dv : List Nat) :
    (allocate_small s d dv).1.map = s.map := by
  unfold allocate_small create_node
  cases s.freelist <;> rfl

theorem allocate_small_dok (s : CacheShard) (d : Nat) (dv : List Nat) :
    DOK (allocate_small s d dv).2 dv (allocate_small s d dv).1.nodes := by
  unfold allocate_small create_node
  cases s.freelist with
  | nil =>
    dsimp only
    refine dok_move _ _ _ (Or.inl ?_)
    rw [updN_same]
  | cons f rest =>
    dsimp only
    refine dok_move _ _ _ (Or.inl ?_)
    simp only [occupy_node]
    rw [updN_same]

theorem mok_insert_front {k : Nat} (m : List (Nat × Nat)) (i : Nat)
    (hz : m.countP (fun p => p.1 == k) = 0) : MOK k i ((k, i) :: m) := by
  constructor
  · rw [List.countP_cons, hz]
    simp
  · right
    unfold mapFind
    rw [List.find?_cons]
    simp

/-- C6: if `insert_bytes k w v` completes and the eviction cascade it triggers
neither frees k's entry (the hash index still resolves k) nor demotes it (the
slot still holds data), then `get_bytes k` on the resulting state returns
exactly the inserted bytes `v`.  The `countP ≤ 1` hypothesis states the hash
index holds at most one entry for `k`, which `insert_unique` guarantees in
every reachable state. -/
theorem c6_insert_then_get (s : CacheShard) (k w : Nat) (v : List Nat) (s' : CacheShard)
    (hcount : s.map.countP (fun p => p.1 == k) ≤ 1)
    (hins : insert_bytes s k w v = some s')
    (j : Nat) (hj : mapFind s'.map k = some j)
    (hlive : (s'.nodes j).data ≠ []) :
    (get_bytes s' k).2 = some v := by
  have hupd : ∃ i0, InvKV k i0 v (insert_bytes_update s k w v) := by
    cases hfind : mapFind s.map k with
    | some i =>
      refine ⟨i, ?_, ?_⟩
      · -- map is untouched along the found path
        simp only [insert_bytes_update, hfind]
        obtain ⟨hbw, hbq, hbs, hbm, hbg, hbmap⟩ := bump_freq_fields s i
        cases hQ : ((bump_freq s i).nodes i).queue <;>
          (dsimp only; rw [hbmap]; exact ⟨hcount, Or.inr hfind⟩)
      · -- the final write sets slot i's data to v
        simp only [insert_bytes_update, hfind]
        cases hQ : ((bump_freq s i).nodes i).queue <;>
          (dsimp only; left; rw [updN_same])
    | none =>
      refine ⟨(allocate_small s w v).2, ?_, ?_⟩
      · simp only [insert_bytes_update, hfind]
        have hzero : s.map.countP (fun p => p.1 == k) = 0 := countP_zero_of_find_none hfind
        split <;>
          (dsimp only;
           exact mok_insert_front _ _ (by rw [allocate_small_map]; exact hzero))
      · simp only [insert_bytes_update, hfind]
        split <;> (dsimp only; exact allocate_small_dok s w v)
  obtain ⟨i0, hinv1⟩ := hupd
  unfold insert_bytes at hins
  dsimp only at hins
  cases h1 : evict_small_if_needed (insertFuel (insert_bytes_update s k w v))
      (insert_bytes_update s k w v) with
  | none =>
    rw [h1] at hins
    simp at hins
  | some s2 =>
    rw [h1] at hins
    dsimp only at hins
    cases h2 : evict_ghost_if_needed (insertFuel s2) s2 with
    | none =>
      rw [h2] at hins
      simp at hins
    | some s3 =>
      rw [h2] at hins
      dsimp only at hins
      have i2 := invkv_small_loop _ _ _ h1 hinv1
      have i3 := invkv_ghost_loop _ _ _ h2 i2
      have i4 := invkv_main_loop _ _ _ hins i3
      obtain ⟨⟨hc4, hf4⟩, hd4⟩ := i4
      have hji : j = i0 := by
        rcases hf4 with h5 | h5
        · rw [h5] at hj
          exact absurd hj (by simp)
        · rw [h5] at hj
          injection hj with he
          exact he.symm
      have hdv : (s'.nodes j).data = v := by
        rw [hji]
        rcases hd4 with h5 | h5
        · exact h5
        · rw [hji] at hlive
          exact absurd h5 hlive
      have hvne : v ≠ [] := by
        rw [← hdv]
        exact hlive
      unfold get_bytes
      rw [hj]
      dsimp only
      have hbd : ((bump_freq s' j).nodes j).data = (s'.nodes j).data := by
        unfold bump_freq
        split
        · dsimp only
          rw [updN_same]
        · rfl
      rw [hbd, hdv, if_neg hvne]

def sW6 : CacheShard := CacheShard.new 100 100 100

def sW6post : CacheShard := (insert_bytes sW6 0 5 [7]).getD sW6

theorem c6_insert_then_get_witness :
    sW6.map.countP (fun p => p.1 == 0) ≤ 1 ∧
    insert_bytes sW6 0 5 [7] = some sW6post ∧
    mapFind sW6post.map 0 = some 0 ∧
    (sW6post.nodes 0).data ≠ [] ∧
    (get_bytes sW6post 0).2 = some [7] :=
  ⟨by decide, rfl, by decide, by decide,
    c6_insert_then_get sW6 0 5 [7] sW6post (by decide) rfl 0 (by decide) (by decide)⟩
